import Mathlib

set_option maxHeartbeats 1000000

/-
Verification development for gardenia, a CLI downloader of Vim plugins.
The Go source (gardenia.go) is shallowly embedded: pure decision logic is
translated to Lean functions, network and file-system effects are supplied
by explicit oracle parameters, and the file system is a list of
(path, item) entries.
-/

namespace Gardenia

/-- Install record stored per bundle identity (struct installedDirSHA in the
source): installed subdirectory and installed commit SHA. -/
structure installedDirSHA where
  Dir : String
  SHA : String
deriving DecidableEq

/-- A desired bundle (struct bundle in the source): target subdirectory,
repository owner and repository name. -/
structure bundle where
  Dir : String
  Owner : String
  Repo : String
deriving DecidableEq

/-- Commit part of one entry of the branch-listing response
(struct branchesResponseCommit in the source). -/
structure branchesResponseCommit where
  SHA : String
  URL : String
deriving DecidableEq

/-- One entry of the branch-listing response (struct branchesResponse in the
source). -/
structure branchesResponse where
  Name : String
  Commit : branchesResponseCommit
deriving DecidableEq

/-- strings.SplitN(s, "/", 2) from newBundle: split at the FIRST slash.
Returns none exactly when the string contains no slash (in Go: the result
slice has length 1, failing the `len(sp) != 2` check). -/
def breakSlash : List Char → Option (List Char × List Char)
  | [] => none
  | c :: rest =>
    if c = '/' then some ([], rest)
    else
      match breakSlash rest with
      | none => none
      | some (a, b) => some (c :: a, b)

/-- newBundle from the source: build a bundle from an "owner/repo" string and
a directory, erroring when the string has no slash. -/
def newBundle (ownerrepo dir : String) : Except String bundle :=
  match breakSlash ownerrepo.data with
  | none => Except.error (ownerrepo ++ ": plugin should be style of :owner/:repo")
  | some (o, r) => Except.ok ⟨dir, String.mk o, String.mk r⟩

/-- Whether an Except value is a success. -/
def exceptOk {ε α : Type} : Except ε α → Bool
  | Except.ok _ => true
  | Except.error _ => false

/-- Whether a character list contains a slash. -/
def hasSlash : List Char → Bool
  | [] => false
  | c :: rest => if c = '/' then true else hasSlash rest

/-- Number of occurrences of a character in a list. -/
def countChar (c : Char) : List Char → Nat
  | [] => 0
  | d :: rest => (if d = c then 1 else 0) + countChar c rest

theorem breakSlash_isSome (cs : List Char) : (breakSlash cs).isSome = hasSlash cs := by
  induction cs with
  | nil => rfl
  | cons c rest ih =>
    by_cases h : c = '/'
    · simp [breakSlash, hasSlash, h]
    · cases hb : breakSlash rest with
      | none => simp [breakSlash, hasSlash, h, hb, ← ih]
      | some p => cases p with
        | mk a b => simp [breakSlash, hasSlash, h, hb, ← ih]

/- ========================= Paths and the zip extractor ====================== -/

/-- A file-system path as a list of components (rooted at the first
component). -/
abbrev Path := List String

/-- One step of Go's lexical path cleaning (path.Clean as invoked by
filepath.Join): "." and empty components are skipped, ".." pops the last
component (at the root it is dropped), anything else descends. -/
def resolveComp (stack : Path) (c : String) : Path :=
  if c = "." ∨ c = "" then stack
  else if c = ".." then stack.dropLast
  else stack ++ [c]

/-- filepath.Join(base, name) for an already-clean absolute base: append the
name's components and clean lexically. -/
def joinPath (base : Path) (name : List String) : Path :=
  name.foldl resolveComp base

/-- Split a slash-separated entry name into components. -/
def splitPathAux : List Char → List Char → List (List Char)
  | [], cur => [cur.reverse]
  | c :: rest, cur =>
    if c = '/' then cur.reverse :: splitPathAux rest []
    else splitPathAux rest (c :: cur)

/-- Split an archive entry name (a slash-separated string) into components. -/
def splitPath (s : String) : List String :=
  (splitPathAux s.data []).map String.mk

/-- One entry of a zip archive: its name (slash-separated, as stored in the
archive) and whether it is a directory entry. -/
structure zipEntry where
  name : String
  isDir : Bool
deriving DecidableEq

/-- unzip from the source, per entry: the written path is
filepath.Join(dest, f.Name) with NO containment check; directories are
created with os.MkdirAll (whose error the source ignores), files are written
subject to the I/O oracle writeOk (os.OpenFile / io.Copy failures).
Returns the list of paths written, or none on a failed file write. -/
def unzip (writeOk : Path → Bool) (dest : Path) : List zipEntry → Option (List Path)
  | [] => some []
  | e :: rest =>
    let p := joinPath dest (splitPath e.name)
    if e.isDir then
      match unzip writeOk dest rest with
      | some ps => some (p :: ps)
      | none => none
    else if writeOk p then
      match unzip writeOk dest rest with
      | some ps => some (p :: ps)
      | none => none
    else none

/-- base `under` p: p lies inside base, i.e. base is a path-prefix of p. -/
def under : Path → Path → Bool
  | [], _ => true
  | _ :: _, [] => false
  | a :: p, b :: q => a = b && under p q

/- ========================= The synchronization pass ========================= -/

/-- The version store, as loaded from installed.json: an association list from
bundle identity ("owner/repo") to its install record. -/
abbrev Store := List (String × installedDirSHA)

/-- First-match association lookup, the Go map read `installed[bundleName]`. -/
def lookupStore : Store → String → Option installedDirSHA
  | [], _ => none
  | e :: rest, k => if e.1 = k then some e.2 else lookupStore rest k

/-- Go map assignment `m[k] = v`: replace the first entry with key k, or
append when absent. -/
def upsert : Store → String → installedDirSHA → Store
  | [], k, v => [(k, v)]
  | e :: rest, k, v => if e.1 = k then (k, v) :: rest else e :: upsert rest k v

/-- The bundle identity `b.Owner + "/" + b.Repo`. -/
def bundleName (b : bundle) : String :=
  b.Owner ++ "/" ++ b.Repo

/-- The source's scan for the hardcoded primary branch: the first listed
branch named "master", if any. -/
def findMaster : List branchesResponse → Option branchesResponseCommit
  | [] => none
  | br :: rest => if br.Name = "master" then some br.Commit else findMaster rest

/-- Per-bundle oracle for one worker's external effects: the branch-listing
response (none = listBranches network/decoding error), whether os.Stat on the
install destination succeeds at decision time, and whether the download,
unzip and install steps would succeed if attempted. -/
structure bundleEnv where
  branches : Option (List branchesResponse)
  destExists : Bool
  downloadOk : Bool
  unzipOk : Bool
  installOk : Bool

/-- Effects one worker actually performed: whether an archive download was
started, and whether the install destination was (re)installed. -/
structure effects where
  downloadTried : Bool
  installDone : Bool
deriving DecidableEq

/-- Lines 270-275 of the source: the record used for the version comparison.
An absent record, or a record whose install destination fails os.Stat, is
replaced by the empty record. -/
def effectiveRecord (installed : Store) (name : String) (destExists : Bool) : installedDirSHA :=
  match lookupStore installed name with
  | none => ⟨"", ""⟩
  | some r => if destExists then r else ⟨"", ""⟩

/-- One worker of install() (the goroutine body, lines 242-330): resolve the
master branch, compare the stored SHA with the resolved tip SHA, then skip,
list, or download+unzip+install. Returns the emission sent on the channel (if
any) and the effects performed. -/
def runBundle (listMode : Bool) (installed : Store) (b : bundle) (env : bundleEnv) :
    Option (String × installedDirSHA) × effects :=
  match env.branches with
  | none => (none, ⟨false, false⟩)
  | some brs =>
    match findMaster brs with
    | none => (none, ⟨false, false⟩)
    | some master =>
      if (effectiveRecord installed (bundleName b) env.destExists).SHA = master.SHA then
        (some (bundleName b, effectiveRecord installed (bundleName b) env.destExists), ⟨false, false⟩)
      else if listMode then (none, ⟨false, false⟩)
      else if env.downloadOk = false then (none, ⟨true, false⟩)
      else if env.unzipOk = false then (none, ⟨true, false⟩)
      else if env.installOk = false then (none, ⟨true, false⟩)
      else (some (bundleName b, ⟨b.Dir, master.SHA⟩), ⟨true, true⟩)

/-- The channel contents of one pass: the emissions of all workers, in bundle
order (one linearization of the concurrent aggregation). -/
def emissions (listMode : Bool) (installed : Store) (env : bundle → bundleEnv) :
    List bundle → List (String × installedDirSHA)
  | [] => []
  | b :: rest =>
    match (runBundle listMode installed b (env b)).1 with
    | some e => e :: emissions listMode installed env rest
    | none => emissions listMode installed env rest

/-- The consumer loop of install(): fold the emissions into a fresh map. -/
def buildStore (acc : Store) : List (String × installedDirSHA) → Store
  | [] => acc
  | e :: rest => buildStore (upsert acc e.1 e.2) rest

/-- install() from the source: the new version store produced by one pass. -/
def install (listMode : Bool) (bundles : List bundle) (installed : Store)
    (env : bundle → bundleEnv) : Store :=
  buildStore [] (emissions listMode installed env bundles)

/-- Whether bundles have pairwise distinct identities. -/
def nodupNames : List bundle → Bool
  | [] => true
  | b :: rest => rest.all (fun c => !(decide (bundleName c = bundleName b))) && nodupNames rest

/- ========================= Cleaner ========================= -/

/-- The repo-name part of a stored identity: everything after the first
slash (sp[1] of strings.SplitN(k, "/", 2) in cleanPlugins). -/
def repoName (k : String) : String :=
  match breakSlash k.data with
  | some (_, r) => String.mk r
  | none => k

/-- Whether a stored entry (k, v) is matched by some desired bundle with the
same identity AND the same declared subdirectory (the inner loop of
cleanPlugins). -/
def matched (bs : List bundle) (k : String) (v : installedDirSHA) : Bool :=
  bs.any (fun b => decide (k = bundleName b) && decide (v.Dir = b.Dir))

/-- cleanPlugins from the source, over the stored entries in iteration order.
rmOk is the os.RemoveAll oracle, applied to (record subdirectory, repo name).
Returns the list of removed (subdirectory, repo name) locations, or the
first fatal error (malformed key, or a failed removal). -/
def cleanPlugins (bs : List bundle) (rmOk : String → String → Bool) :
    Store → Except String (List (String × String))
  | [] => Except.ok []
  | (k, v) :: rest =>
    if matched bs k v then cleanPlugins bs rmOk rest
    else if (breakSlash k.data).isSome then
      if rmOk v.Dir (repoName k) then
        match cleanPlugins bs rmOk rest with
        | Except.ok l => Except.ok ((v.Dir, repoName k) :: l)
        | Except.error e => Except.error e
      else Except.error (k ++ ": remove failed")
    else Except.error (k ++ ": plugin should be style of :owner/:repo")

/- ========================= main, after setup ========================= -/

/-- The observable outcome of one run: whether the process exits successfully,
the version-record file contents written at pass end (none = not written),
and the install locations removed by the clean step. -/
structure mainOutcome where
  exitOk : Bool
  written : Option Store
  removed : List (String × String)
deriving DecidableEq

/-- main() from the source, after setup and config/state loading (lines
456-471): optionally clean (fatal on error), run the pass, then persist the
new store unless in list mode (fatal on a failed write, modelled by saveOk). -/
def mainRun (listMode cleanMode : Bool) (bundles : List bundle) (installed : Store)
    (env : bundle → bundleEnv) (rmOk : String → String → Bool) (saveOk : Bool) : mainOutcome :=
  match (if cleanMode then cleanPlugins bundles rmOk installed else Except.ok []) with
  | Except.error _ => ⟨false, none, []⟩
  | Except.ok rem =>
    if listMode then ⟨true, none, rem⟩
    else if saveOk then ⟨true, some (install listMode bundles installed env), rem⟩
    else ⟨false, none, rem⟩

/- ========================= Store lemmas ========================= -/

theorem lookup_upsert_self (m : Store) (k : String) (v : installedDirSHA) :
    lookupStore (upsert m k v) k = some v := by
  induction m with
  | nil => simp [upsert, lookupStore]
  | cons e rest ih =>
    by_cases h : e.1 = k
    · simp [upsert, h, lookupStore]
    · simp [upsert, h, lookupStore, ih]

theorem lookup_upsert_ne (m : Store) (k : String) (v : installedDirSHA) (q : String)
    (hq : q ≠ k) : lookupStore (upsert m k v) q = lookupStore m q := by
  induction m with
  | nil => simp [upsert, lookupStore, Ne.symm hq]
  | cons e rest ih =>
    by_cases h : e.1 = k
    · have h2 : e.1 ≠ q := by rw [h]; exact Ne.symm hq
      simp [upsert, h, lookupStore, h2, Ne.symm hq]
    · simp [upsert, h, lookupStore, ih]

theorem buildStore_lookup_nomem (es : List (String × installedDirSHA)) (k : String) :
    ∀ acc : Store, (∀ e ∈ es, e.1 ≠ k) →
      lookupStore (buildStore acc es) k = lookupStore acc k := by
  induction es with
  | nil => intro acc _; rfl
  | cons e rest ih =>
    intro acc h
    have he : e.1 ≠ k := h e (by simp)
    have hrest : ∀ x ∈ rest, x.1 ≠ k := fun x hx => h x (by simp [hx])
    simp only [buildStore]
    rw [ih _ hrest, lookup_upsert_ne acc e.1 e.2 k (Ne.symm he)]

theorem buildStore_lookup_isSome (es : List (String × installedDirSHA)) (k : String) :
    ∀ acc : Store, (lookupStore (buildStore acc es) k).isSome = true →
      (∃ e ∈ es, e.1 = k) ∨ (lookupStore acc k).isSome = true := by
  induction es with
  | nil => intro acc h; exact Or.inr h
  | cons e rest ih =>
    intro acc h
    rcases ih _ h with h1 | h2
    · obtain ⟨x, hx, hk⟩ := h1
      exact Or.inl ⟨x, by simp [hx], hk⟩
    · by_cases hek : e.1 = k
      · exact Or.inl ⟨e, by simp, hek⟩
      · right
        rwa [lookup_upsert_ne acc e.1 e.2 k (fun hh => hek hh.symm)] at h2

theorem buildStore_lookup_unique (es : List (String × installedDirSHA)) (k : String)
    (v : installedDirSHA) :
    ∀ acc : Store, (k, v) ∈ es → (∀ e ∈ es, e.1 = k → e.2 = v) →
      lookupStore (buildStore acc es) k = some v := by
  induction es with
  | nil => intro acc h _; simp at h
  | cons e rest ih =>
    intro acc hmem hall
    by_cases hr : (k, v) ∈ rest
    · exact ih _ hr (fun x hx hk => hall x (by simp [hx]) hk)
    · have he : e = (k, v) := by
        rcases List.mem_cons.mp hmem with h | h
        · exact h.symm
        · exact absurd h hr
      subst he
      have hrest : ∀ x ∈ rest, x.1 ≠ k := by
        intro x hx hk
        have hv := hall x (by simp [hx]) hk
        have hxkv : x = (k, v) := by
          cases x with
          | mk x1 x2 => simp at hk hv; simp [hk, hv]
        exact hr (hxkv ▸ hx)
      simp only [buildStore]
      rw [buildStore_lookup_nomem rest k _ hrest, lookup_upsert_self]

theorem emissions_mem (lm : Bool) (inst : Store) (env : bundle → bundleEnv)
    (bs : List bundle) (e : String × installedDirSHA)
    (he : e ∈ emissions lm inst env bs) :
    ∃ b, b ∈ bs ∧ (runBundle lm inst b (env b)).1 = some e := by
  induction bs with
  | nil => simp [emissions] at he
  | cons b rest ih =>
    cases hr : (runBundle lm inst b (env b)).1 with
    | some x =>
      simp only [emissions, hr] at he
      rcases List.mem_cons.mp he with h | h
      · exact ⟨b, by simp, by rw [hr, h]⟩
      · obtain ⟨c, hc, hrc⟩ := ih h
        exact ⟨c, by simp [hc], hrc⟩
    | none =>
      simp only [emissions, hr] at he
      obtain ⟨c, hc, hrc⟩ := ih he
      exact ⟨c, by simp [hc], hrc⟩

theorem emissions_of_mem (lm : Bool) (inst : Store) (env : bundle → bundleEnv)
    (bs : List bundle) (b : bundle) (e : String × installedDirSHA)
    (hb : b ∈ bs) (hr : (runBundle lm inst b (env b)).1 = some e) :
    e ∈ emissions lm inst env bs := by
  induction bs with
  | nil => simp at hb
  | cons c rest ih =>
    rcases List.mem_cons.mp hb with h | h
    · subst h
      simp [emissions, hr]
    · cases hc : (runBundle lm inst c (env c)).1 with
      | some x =>
        simp only [emissions, hc]
        exact List.mem_cons_of_mem x (ih h)
      | none =>
        simp only [emissions, hc]
        exact ih h

theorem runBundle_key (lm : Bool) (inst : Store) (b : bundle) (env : bundleEnv)
    (e : String × installedDirSHA) (h : (runBundle lm inst b env).1 = some e) :
    e.1 = bundleName b := by
  cases hb : env.branches with
  | none => simp [runBundle, hb] at h
  | some brs =>
    cases hm : findMaster brs with
    | none => simp [runBundle, hb, hm] at h
    | some master =>
      simp only [runBundle, hb, hm] at h
      split_ifs at h <;> simp_all
      · rw [← h]
      · rw [← h]

theorem nodupNames_inj (bs : List bundle) (h : nodupNames bs = true) :
    ∀ b ∈ bs, ∀ c ∈ bs, bundleName b = bundleName c → b = c := by
  induction bs with
  | nil => intro b hb; simp at hb
  | cons a rest ih =>
    simp only [nodupNames, Bool.and_eq_true] at h
    obtain ⟨hall, hrest⟩ := h
    have hall2 : ∀ c ∈ rest, bundleName c ≠ bundleName a := by
      intro c hc
      have := List.all_eq_true.mp hall c hc
      simpa using this
    intro b hb c hc heq
    rcases List.mem_cons.mp hb with h1 | h1
    · rcases List.mem_cons.mp hc with h2 | h2
      · rw [h1, h2]
      · subst h1
        exact absurd heq.symm (hall2 c h2)
    · rcases List.mem_cons.mp hc with h2 | h2
      · subst h2
        exact absurd heq (hall2 b h1)
      · exact ih hrest b h1 c h2 heq

theorem install_lookup_none (lm : Bool) (bs : List bundle) (inst : Store)
    (env : bundle → bundleEnv) (k : String)
    (h : ∀ b ∈ bs, bundleName b = k → (runBundle lm inst b (env b)).1 = none) :
    lookupStore (install lm bs inst env) k = none := by
  have hkeys : ∀ e ∈ emissions lm inst env bs, e.1 ≠ k := by
    intro e he hk
    obtain ⟨b, hb, hrb⟩ := emissions_mem lm inst env bs e he
    have hkey := runBundle_key lm inst b (env b) e hrb
    rw [hkey] at hk
    rw [h b hb hk] at hrb
    cases hrb
  unfold install
  rw [buildStore_lookup_nomem _ _ _ hkeys]
  rfl

/- ========================= Claim theorems ========================= -/

/-- C1 counterexample: the decision rule as claimed is false at a concrete
input. With an empty previous store (record absent), a resolved master tip
whose SHA is the empty string, and list mode off, the claim demands a
(re)fetch and reinstall; the code instead compares "" with "" as equal,
performs no download and no install, and emits an empty record. -/
theorem decisionRule_counterexample :
    lookupStore [] (bundleName ⟨"bundle", "a", "b"⟩) = none
    ∧ findMaster [⟨"master", ⟨"", "u"⟩⟩] = some ⟨"", "u"⟩
    ∧ runBundle false [] ⟨"bundle", "a", "b"⟩
        ⟨some [⟨"master", ⟨"", "u"⟩⟩], false, true, true, true⟩
      = (some (bundleName ⟨"bundle", "a", "b"⟩, ⟨"", ""⟩), ⟨false, false⟩) := by
  decide

/-- C1 (amended): if the previous record is present, its marker is non-empty,
equals the resolved master tip marker, and the destination exists, the worker
performs no download and no install and emits the record unchanged; and
PROVIDED the resolved tip marker is non-empty, a bundle whose record is
absent, has an empty marker, whose destination is missing, or whose marker
differs is refetched (download attempted) and, when all steps succeed,
reinstalled with the new marker emitted (outside list mode). -/
theorem decisionRule_amended (lm : Bool) (installed : Store) (b : bundle) (env : bundleEnv)
    (brs : List branchesResponse) (master : branchesResponseCommit)
    (hb : env.branches = some brs) (hm : findMaster brs = some master) :
    (∀ r0 : installedDirSHA, lookupStore installed (bundleName b) = some r0 →
        r0.SHA ≠ "" → r0.SHA = master.SHA → env.destExists = true →
        runBundle lm installed b env = (some (bundleName b, r0), ⟨false, false⟩))
    ∧ (master.SHA ≠ "" → lm = false →
        (lookupStore installed (bundleName b) = none
          ∨ ∃ r0 : installedDirSHA, lookupStore installed (bundleName b) = some r0
              ∧ (r0.SHA = "" ∨ env.destExists = false ∨ r0.SHA ≠ master.SHA)) →
        (runBundle lm installed b env).2.downloadTried = true
          ∧ (env.downloadOk = true → env.unzipOk = true → env.installOk = true →
              runBundle lm installed b env
                = (some (bundleName b, ⟨b.Dir, master.SHA⟩), ⟨true, true⟩))) := by
  constructor
  · intro r0 h1 _h2 h3 h4
    have heff : effectiveRecord installed (bundleName b) env.destExists = r0 := by
      simp [effectiveRecord, h1, h4]
    simp [runBundle, hb, hm, heff, h3]
  · intro hms hlm hcase
    subst hlm
    have heff : (effectiveRecord installed (bundleName b) env.destExists).SHA ≠ master.SHA := by
      cases hd : env.destExists with
      | false =>
        rcases hcase with h1 | ⟨r0, h1, _⟩
        · simp only [effectiveRecord, h1]
          intro hh
          exact hms hh.symm
        · simp only [effectiveRecord, h1, hd, if_false]
          intro hh
          exact hms hh.symm
      | true =>
        rcases hcase with h1 | ⟨r0, h1, h2⟩
        · simp only [effectiveRecord, h1]
          intro hh
          exact hms hh.symm
        · simp only [effectiveRecord, h1, hd, if_true]
          rcases h2 with h2 | h2 | h2
          · rw [h2]
            intro hh
            exact hms hh.symm
          · rw [hd] at h2
            cases h2
          · exact h2
    constructor
    · simp only [runBundle, hb, hm, if_neg heff]
      split_ifs <;> simp_all
    · intro hdl hu hi
      simp [runBundle, hb, hm, if_neg heff, hdl, hu, hi]

/-- C1 witness: a concrete up-to-date bundle (record present, non-empty
matching marker, destination present) is skipped and its record emitted
unchanged, via the amended decision-rule theorem. -/
theorem decisionRule_amended_witness :
    runBundle false [("a/b", ⟨"d", "s"⟩)] ⟨"d", "a", "b"⟩
        ⟨some [⟨"master", ⟨"s", "u"⟩⟩], true, true, true, true⟩
      = (some (bundleName ⟨"d", "a", "b"⟩, ⟨"d", "s"⟩), ⟨false, false⟩) :=
  (decisionRule_amended false [("a/b", ⟨"d", "s"⟩)] ⟨"d", "a", "b"⟩
      ⟨some [⟨"master", ⟨"s", "u"⟩⟩], true, true, true, true⟩
      [⟨"master", ⟨"s", "u"⟩⟩] ⟨"s", "u"⟩ rfl (by decide)).1
    ⟨"d", "s"⟩ (by decide) (by decide) (by decide) rfl

/-- C2 counterexample: a bundle with a previous install record whose branch
resolution fails emits nothing, and its record is NOT carried over: the new
store produced by the pass has no entry for its identity. -/
theorem carryOver_counterexample :
    lookupStore [("a/b", ⟨"d", "s"⟩)] "a/b" = some ⟨"d", "s"⟩
    ∧ (runBundle false [("a/b", ⟨"d", "s"⟩)] ⟨"d", "a", "b"⟩
        ⟨none, true, true, true, true⟩).1 = none
    ∧ lookupStore
        (install false [⟨"d", "a", "b"⟩] [("a/b", ⟨"d", "s"⟩)]
          (fun _ => ⟨none, true, true, true, true⟩)) "a/b" = none := by
  decide

/-- C2 (amended): for every bundle whose per-bundle processing fails, its
previous InstallRecord is DROPPED from the new VersionStore produced by the
pass: when every desired bundle with that identity emits nothing, the new
store has no entry for the identity, even though the previous store did. -/
theorem carryOver_amended (lm : Bool) (bundles : List bundle) (installed : Store)
    (env : bundle → bundleEnv) (k : String) (r : installedDirSHA)
    (_hprev : lookupStore installed k = some r)
    (hfail : ∀ b ∈ bundles, bundleName b = k → (runBundle lm installed b (env b)).1 = none) :
    lookupStore (install lm bundles installed env) k = none :=
  install_lookup_none lm bundles installed env k hfail

/-- C2 witness: concrete instance of the amended carry-over theorem. -/
theorem carryOver_amended_witness :
    lookupStore
      (install false [⟨"d", "a", "b"⟩] [("a/b", ⟨"d", "s"⟩)]
        (fun _ => ⟨none, true, true, true, true⟩)) "a/b" = none :=
  carryOver_amended false [⟨"d", "a", "b"⟩] [("a/b", ⟨"d", "s"⟩)]
    (fun _ => ⟨none, true, true, true, true⟩) "a/b" ⟨"d", "s"⟩ (by decide) (by decide)

/-- C3: if bundle P fails at any per-bundle step (no emission) while bundle Q
succeeds in the same pass, the new VersionStore contains Q's new record and
omits P's identity entirely, and the pass is not aborted: the run exits
successfully and persists the new store (per-bundle failures are never
fatal; only setup, clean or persist failures are). -/
theorem partialFailureIsolation (bundles : List bundle) (installed : Store)
    (env : bundle → bundleEnv) (rmOk : String → String → Bool)
    (P Q : bundle) (vQ : installedDirSHA)
    (hnd : nodupNames bundles = true)
    (hP : P ∈ bundles) (hQ : Q ∈ bundles)
    (hPfail : (runBundle false installed P (env P)).1 = none)
    (hQsucc : (runBundle false installed Q (env Q)).1 = some (bundleName Q, vQ)) :
    lookupStore (install false bundles installed env) (bundleName Q) = some vQ
    ∧ lookupStore (install false bundles installed env) (bundleName P) = none
    ∧ (mainRun false false bundles installed env rmOk true).exitOk = true
    ∧ (mainRun false false bundles installed env rmOk true).written
        = some (install false bundles installed env) := by
  refine ⟨?_, ?_, by simp [mainRun], by simp [mainRun]⟩
  · have hmem : (bundleName Q, vQ) ∈ emissions false installed env bundles :=
      emissions_of_mem false installed env bundles Q (bundleName Q, vQ) hQ hQsucc
    have huniq : ∀ e ∈ emissions false installed env bundles, e.1 = bundleName Q → e.2 = vQ := by
      intro e he hk
      obtain ⟨c, hc, hrc⟩ := emissions_mem false installed env bundles e he
      have hkey := runBundle_key false installed c (env c) e hrc
      have hcQ : c = Q := nodupNames_inj bundles hnd c hc Q hQ (by rw [← hkey, hk])
      subst hcQ
      rw [hQsucc] at hrc
      injection hrc with h
      rw [← h]
    exact buildStore_lookup_unique (emissions false installed env bundles)
      (bundleName Q) vQ [] hmem huniq
  · apply install_lookup_none
    intro b hb hk
    have hbP : b = P := nodupNames_inj bundles hnd b hb P hP hk
    rw [hbP]
    exact hPfail

/-- C3 witness: concrete pass over two bundles where p/p fails branch
resolution and q/q succeeds; the new store keeps q/q and omits p/p. -/
theorem partialFailureIsolation_witness :
    lookupStore
        (install false [⟨"d", "p", "p"⟩, ⟨"d", "q", "q"⟩] []
          (fun b => if b.Owner = "p" then ⟨none, true, true, true, true⟩
            else ⟨some [⟨"master", ⟨"s", "u"⟩⟩], false, true, true, true⟩))
        (bundleName ⟨"d", "q", "q"⟩) = some ⟨"d", "s"⟩
    ∧ lookupStore
        (install false [⟨"d", "p", "p"⟩, ⟨"d", "q", "q"⟩] []
          (fun b => if b.Owner = "p" then ⟨none, true, true, true, true⟩
            else ⟨some [⟨"master", ⟨"s", "u"⟩⟩], false, true, true, true⟩))
        (bundleName ⟨"d", "p", "p"⟩) = none := by
  have h := partialFailureIsolation [⟨"d", "p", "p"⟩, ⟨"d", "q", "q"⟩] []
    (fun b => if b.Owner = "p" then ⟨none, true, true, true, true⟩
      else ⟨some [⟨"master", ⟨"s", "u"⟩⟩], false, true, true, true⟩)
    (fun _ _ => true) ⟨"d", "p", "p"⟩ ⟨"d", "q", "q"⟩ ⟨"d", "s"⟩
    (by decide) (by decide) (by decide) (by decide) (by decide)
  exact ⟨h.1, h.2.1⟩

/-- C4: the claim is right and the code is wrong (zip-slip). unzip joins each
entry name onto the output directory with a plain lexical join and performs
NO containment check: an archive entry named "../evil" unpacked into /out is
written to /evil, outside the output directory, and unzip reports success
instead of rejecting the entry. -/
theorem unzipTraversal_bug :
    unzip (fun _ => true) ["out"] [⟨"../evil", false⟩] = some [["evil"]]
    ∧ under ["out"] ["evil"] = false := by
  decide

/-- C5 counterexample: a leaf string with two slashes is NOT rejected:
newBundle "a/b/c" succeeds, taking everything after the first slash as the
repository name, although the claim demands a fatal parse error for any leaf
not containing exactly one slash. -/
theorem leafParse_counterexample :
    exceptOk (newBundle "a/b/c" "d") = true
    ∧ countChar '/' "a/b/c".data = 2
    ∧ (newBundle "a/b/c" "d").toOption = some ⟨"d", "a", "b/c"⟩ := by
  decide

/-- C5 (amended): parsing a leaf string fails with a fatal parse error if and
only if the string contains NO slash at all; a leaf with one or more slashes
is accepted, with the owner taken before the first slash and the repository
name taken as the whole remainder. -/
theorem leafParse_amended (s d : String) :
    exceptOk (newBundle s d) = hasSlash s.data := by
  unfold newBundle
  rw [← breakSlash_isSome]
  cases h : breakSlash s.data with
  | none => simp [h, exceptOk]
  | some p =>
    cases p with
    | mk o r => simp [h, exceptOk]

/-- C8: list-only purity. In list mode (with the independent clean flag off),
the version-record file is not written at pass end, no install location is
removed, and every worker performs no archive download and no install,
whatever the desired-bundle list and previous state. -/
theorem listOnlyPurity (bundles : List bundle) (installed : Store)
    (env : bundle → bundleEnv) (rmOk : String → String → Bool) (saveOk : Bool) :
    (mainRun true false bundles installed env rmOk saveOk).written = none
    ∧ (mainRun true false bundles installed env rmOk saveOk).removed = []
    ∧ ∀ b : bundle, (runBundle true installed b (env b)).2 = ⟨false, false⟩ := by
  refine ⟨by simp [mainRun], by simp [mainRun], ?_⟩
  intro b
  cases hb : (env b).branches with
  | none => simp [runBundle, hb]
  | some brs =>
    cases hm : findMaster brs with
    | none => simp [runBundle, hb, hm]
    | some master =>
      by_cases h1 : (effectiveRecord installed (bundleName b) (env b).destExists).SHA
          = master.SHA
      · simp [runBundle, hb, hm, h1]
      · simp [runBundle, hb, hm, h1]

/-- C10: every key of the new VersionStore produced by a pass is the identity
of some desired bundle, and identities not named by any desired bundle
(including those present only in the previous store) never appear in the new
store, whether or not clean mode is on. -/
theorem newStoreKeys (lm : Bool) (bundles : List bundle) (installed : Store)
    (env : bundle → bundleEnv) (k : String) :
    ((lookupStore (install lm bundles installed env) k).isSome = true →
        ∃ b, b ∈ bundles ∧ k = bundleName b)
    ∧ ((∀ b ∈ bundles, bundleName b ≠ k) →
        lookupStore (install lm bundles installed env) k = none) := by
  constructor
  · intro h
    rcases buildStore_lookup_isSome (emissions lm installed env bundles) k [] h with h1 | h2
    · obtain ⟨e, he, hk⟩ := h1
      obtain ⟨b, hb, hrb⟩ := emissions_mem lm installed env bundles e he
      exact ⟨b, hb, by rw [← hk, runBundle_key lm installed b (env b) e hrb]⟩
    · simp [lookupStore] at h2
  · intro h
    exact install_lookup_none lm bundles installed env k
      (fun b hb hk => absurd hk (h b hb))

/-- C7: clean correctness. Over a previous store whose keys are well formed
(contain a slash), the clean step succeeds exactly when the removal of every
stored entry not matched by a desired bundle with the same identity AND the
same declared subdirectory succeeds; on success the removed locations are
exactly record.Dir/repoName(k) for the unmatched entries, and matched
entries are never removed; any removal failure makes the clean step return
the error (propagated, not swallowed). -/
theorem cleanPlugins_spec (bs : List bundle) (rmOk : String → String → Bool)
    (installed : Store)
    (hk : installed.all (fun e => (breakSlash e.1.data).isSome) = true) :
    ((∃ l, cleanPlugins bs rmOk installed = Except.ok l)
        ↔ ∀ e ∈ installed, matched bs e.1 e.2 = false → rmOk e.2.Dir (repoName e.1) = true)
    ∧ ∀ l, cleanPlugins bs rmOk installed = Except.ok l →
        l = (installed.filter (fun e => !matched bs e.1 e.2)).map
              (fun e => (e.2.Dir, repoName e.1)) := by
  induction installed with
  | nil =>
    refine ⟨⟨fun _ x hx => by simp at hx, fun _ => ⟨[], rfl⟩⟩, ?_⟩
    intro l hl
    simp only [cleanPlugins] at hl
    injection hl with h
    simp [← h]
  | cons e rest ih =>
    obtain ⟨k, v⟩ := e
    simp only [List.all_cons, Bool.and_eq_true] at hk
    obtain ⟨hk1, hk2⟩ := hk
    by_cases hm : matched bs k v = true
    · have heq : cleanPlugins bs rmOk ((k, v) :: rest) = cleanPlugins bs rmOk rest := by
        simp [cleanPlugins, hm]
      constructor
      · rw [heq]
        constructor
        · intro hex x hx hmx
          rcases List.mem_cons.mp hx with h | h
          · rw [h] at hmx
            simp only at hmx
            rw [hmx] at hm
            cases hm
          · exact ((ih hk2).1.mp hex) x h hmx
        · intro hall
          exact (ih hk2).1.mpr (fun x hx hmx => hall x (by simp [hx]) hmx)
      · intro l hl
        rw [heq] at hl
        have hres := (ih hk2).2 l hl
        simpa [List.filter_cons, hm] using hres
    · rw [Bool.not_eq_true] at hm
      by_cases hrm : rmOk v.Dir (repoName k) = true
      · have heq : cleanPlugins bs rmOk ((k, v) :: rest)
            = match cleanPlugins bs rmOk rest with
              | Except.ok l => Except.ok ((v.Dir, repoName k) :: l)
              | Except.error e => Except.error e := by
          simp [cleanPlugins, hm, hk1, hrm]
        cases hrest : cleanPlugins bs rmOk rest with
        | ok l0 =>
          rw [hrest] at heq
          constructor
          · constructor
            · intro _ x hx hmx
              rcases List.mem_cons.mp hx with h | h
              · rw [h]
                exact hrm
              · exact ((ih hk2).1.mp ⟨l0, hrest⟩) x h hmx
            · intro _
              exact ⟨(v.Dir, repoName k) :: l0, heq⟩
          · intro l hl
            rw [heq] at hl
            injection hl with h
            rw [← h]
            have hres := (ih hk2).2 l0 hrest
            simp [List.filter_cons, hm, ← hres]
        | error e0 =>
          rw [hrest] at heq
          constructor
          · constructor
            · intro hex
              obtain ⟨l, hl⟩ := hex
              rw [heq] at hl
              cases hl
            · intro hall
              have hex := (ih hk2).1.mpr (fun x hx hmx => hall x (by simp [hx]) hmx)
              obtain ⟨l, hl⟩ := hex
              rw [hl] at hrest
              cases hrest
          · intro l hl
            rw [heq] at hl
            cases hl
      · rw [Bool.not_eq_true] at hrm
        have heq : cleanPlugins bs rmOk ((k, v) :: rest)
            = Except.error (k ++ ": remove failed") := by
          simp [cleanPlugins, hm, hk1, hrm]
        constructor
        · constructor
          · intro hex
            obtain ⟨l, hl⟩ := hex
            rw [heq] at hl
            cases hl
          · intro hall
            have := hall (k, v) (by simp) hm
            simp only at this
            rw [this] at hrm
            cases hrm
        · intro l hl
          rw [heq] at hl
          cases hl

/-- C7 witness: a concrete clean pass over two stored entries, one matched by
a desired bundle (kept) and one unmatched (removed), with all removals
succeeding. -/
theorem cleanPlugins_spec_witness :
    cleanPlugins [⟨"y", "a", "b"⟩] (fun _ _ => true)
        [("a/b", ⟨"y", "s1"⟩), ("c/d", ⟨"x", "s2"⟩)]
      = Except.ok [("x", "d")] := by
  have h := cleanPlugins_spec [⟨"y", "a", "b"⟩] (fun _ _ => true)
    [("a/b", ⟨"y", "s1"⟩), ("c/d", ⟨"x", "s2"⟩)] (by decide)
  obtain ⟨l, hl⟩ := h.1.mpr (by decide)
  have hres := h.2 l hl
  rw [hl, hres]
  rfl

/- ========================= Version-record round trip ========================= -/

/-- A JSON value, as far as the version-record file shape requires. -/
inductive JVal where
  | str : String → JVal
  | obj : List (String × JVal) → JVal

/-- The JSON object json.MarshalIndent produces for one install record. -/
def encodeRecord (v : installedDirSHA) : JVal :=
  JVal.obj [("Dir", JVal.str v.Dir), ("SHA", JVal.str v.SHA)]

/-- saveInstalled from the source, at the JSON-value level: the marshalled
version-record file is an object mapping each identity to its record object
(the textual rendering is Go's standard library, external to the core). -/
def saveInstalled (m : Store) : JVal :=
  JVal.obj (m.map (fun e => (e.1, encodeRecord e.2)))

/-- Decoding of one record object into installedDirSHA. -/
def decodeRecord : JVal → Option installedDirSHA
  | JVal.obj [("Dir", JVal.str d), ("SHA", JVal.str s)] => some ⟨d, s⟩
  | _ => none

/-- Decoding of the object entries into the store mapping. -/
def decodeEntries : List (String × JVal) → Option Store
  | [] => some []
  | (k, j) :: rest =>
    match decodeRecord j, decodeEntries rest with
    | some v, some l => some ((k, v) :: l)
    | _, _ => none

/-- parseInstalled from the source, at the JSON-value level. -/
def parseInstalled : JVal → Option Store
  | JVal.obj l => decodeEntries l
  | JVal.str _ => none

/-- C9: round trip. Persisting any VersionStore mapping and reloading it
yields a mapping equal to the original, per identity key and per
InstallRecord field (Dir and SHA). -/
theorem saveParse_roundTrip (m : Store) :
    parseInstalled (saveInstalled m) = some m := by
  have h : ∀ l : Store, decodeEntries (l.map (fun e => (e.1, encodeRecord e.2))) = some l := by
    intro l
    induction l with
    | nil => rfl
    | cons e rest ih =>
      simp only [List.map_cons, decodeEntries]
      rw [show decodeRecord (encodeRecord e.2) = some e.2 from rfl, ih]
  exact h m

/-- C10 witness: a concrete pass where an identity present only in the
previous store is absent from the new store. -/
theorem newStoreKeys_witness :
    lookupStore
      (install false [⟨"d", "q", "q"⟩] [("old/x", ⟨"d", "s"⟩)]
        (fun _ => ⟨some [⟨"master", ⟨"t", "u"⟩⟩], true, true, true, true⟩)) "old/x" = none :=
  (newStoreKeys false [⟨"d", "q", "q"⟩] [("old/x", ⟨"d", "s"⟩)]
    (fun _ => ⟨some [⟨"master", ⟨"t", "u"⟩⟩], true, true, true, true⟩) "old/x").2 (by decide)

/- ========================= File system and the installer ========================= -/

/-- A file-system node: a directory, or a file with contents. -/
inductive item where
  | dir : item
  | file : String → item
deriving DecidableEq

/-- A file system: the list of existing nodes with their absolute paths. -/
abbrev FS := List (Path × item)

/-- os.Stat success: a node exists at exactly this path. -/
def existsPath (fs : FS) (p : Path) : Bool :=
  fs.any (fun e => decide (e.1 = p))

/-- Whether any node lies at or below the given path. -/
def existsUnder (fs : FS) (p : Path) : Bool :=
  fs.any (fun e => under p e.1)

/-- All ancestors of a path, the path itself and the root included. -/
def ancestors : Path → List Path
  | [] => [[]]
  | a :: p => [] :: (ancestors p).map (fun q => a :: q)

/-- os.MkdirAll: create the directory and every ancestor. -/
def mkdirAll (fs : FS) (p : Path) : FS :=
  ((ancestors p).map (fun q => (q, item.dir))) ++ fs

/-- os.RemoveAll: delete every node at or below the path. -/
def removeAll (fs : FS) (p : Path) : FS :=
  fs.filter (fun e => !under p e.1)

/-- Re-root a path from src to dest. -/
def rebase (src dest : Path) (p : Path) : Path :=
  dest ++ p.drop src.length

/-- os.Rename of a directory tree: requires the source to exist, nothing to
exist at or below the target, and the target's parent directory to exist;
moves every node at or below the source. -/
def rename (fs : FS) (src dest : Path) : Option FS :=
  if existsPath fs src = true ∧ existsUnder fs dest = false
      ∧ (dest = [] ∨ existsPath fs dest.dropLast = true) then
    some ((fs.filter (fun e => under src e.1)).map (fun e => (rebase src dest e.1, e.2))
          ++ fs.filter (fun e => !under src e.1))
  else none

/-- Well-formed file system: every ancestor of an existing node exists. -/
def closedFS (fs : FS) : Bool :=
  fs.all (fun e => (ancestors e.1).all (fun q => existsPath fs q))

/-- Line 301-306 of the source: if os.Stat(dest) fails, os.MkdirAll(dest). -/
def installStep1 (fs : FS) (dest : Path) : FS :=
  if existsPath fs dest then fs else mkdirAll fs dest

/-- Line 308-313 of the source: if os.Stat(dest) succeeds, os.RemoveAll(dest). -/
def installStep2 (fs : FS) (dest : Path) : FS :=
  if existsPath fs dest then removeAll fs dest else fs

/-- Lines 301-315 of the source: install the staged snapshot at src into the
final destination dest (conditional MkdirAll, conditional RemoveAll, then
os.Rename). -/
def installOp (fs : FS) (src dest : Path) : Option FS :=
  rename (installStep2 (installStep1 fs dest) dest) src dest

theorem under_refl (p : Path) : under p p = true := by
  induction p with
  | nil => rfl
  | cons a p ih => simp [under, ih]

theorem under_append (p q : Path) : under p (p ++ q) = true := by
  induction p with
  | nil => rfl
  | cons a p ih => simp [under, ih]

theorem under_trans (p q r : Path) (h1 : under p q = true) (h2 : under q r = true) :
    under p r = true := by
  induction p generalizing q r with
  | nil => rfl
  | cons a p ih =>
    cases q with
    | nil => simp [under] at h1
    | cons b q =>
      cases r with
      | nil => simp [under] at h2
      | cons c r =>
        simp only [under, Bool.and_eq_true, decide_eq_true_eq] at h1 h2 ⊢
        exact ⟨h1.1.trans h2.1, ih q r h1.2 h2.2⟩

theorem under_length (p q : Path) (h : under p q = true) : p.length ≤ q.length := by
  induction p generalizing q with
  | nil => simp
  | cons a p ih =>
    cases q with
    | nil => simp [under] at h
    | cons b q =>
      simp only [under, Bool.and_eq_true] at h
      exact Nat.succ_le_succ (ih q h.2)

theorem under_drop (p q : Path) (h : under p q = true) : p ++ q.drop p.length = q := by
  induction p generalizing q with
  | nil => simp
  | cons a p ih =>
    cases q with
    | nil => simp [under] at h
    | cons b q =>
      simp only [under, Bool.and_eq_true, decide_eq_true_eq] at h
      simp [h.1, ih q h.2]

theorem under_append_cases (p s t : Path) (h : under p (s ++ t) = true) :
    under p s = true ∨ under s p = true := by
  induction s generalizing p with
  | nil => right; rfl
  | cons b s ih =>
    cases p with
    | nil => left; rfl
    | cons a p =>
      simp only [List.cons_append, under, Bool.and_eq_true, decide_eq_true_eq] at h ⊢
      rcases ih p h.2 with h1 | h1
      · left
        exact ⟨h.1, h1⟩
      · right
        exact ⟨h.1.symm, h1⟩

theorem under_dropLast (p : Path) (h : p ≠ []) : under p.dropLast p = true := by
  induction p with
  | nil => exact absurd rfl h
  | cons a p ih =>
    cases p with
    | nil => rfl
    | cons b q =>
      have h2 := ih (by simp)
      simpa [under] using h2

theorem mem_ancestors (q p : Path) : q ∈ ancestors p ↔ under q p = true := by
  induction p generalizing q with
  | nil =>
    cases q with
    | nil => simp [ancestors, under]
    | cons a q => simp [ancestors, under]
  | cons a p ih =>
    cases q with
    | nil => simp [ancestors, under]
    | cons b q =>
      simp only [ancestors, List.mem_cons, List.mem_map]
      constructor
      · intro h
        rcases h with h | ⟨x, hx, hbx⟩
        · exact absurd h (by simp)
        · injection hbx with ha hx2
          subst hx2
          simp only [under, Bool.and_eq_true, decide_eq_true_eq]
          exact ⟨ha.symm, (ih _).mp hx⟩
      · intro h
        simp only [under, Bool.and_eq_true, decide_eq_true_eq] at h
        right
        exact ⟨q, (ih q).mpr h.2, by rw [h.1]⟩

theorem existsPath_iff (fs : FS) (p : Path) :
    existsPath fs p = true ↔ ∃ e ∈ fs, e.1 = p := by
  simp only [existsPath, List.any_eq_true, decide_eq_true_eq]

theorem existsUnder_iff (fs : FS) (p : Path) :
    existsUnder fs p = true ↔ ∃ e ∈ fs, under p e.1 = true := by
  simp only [existsUnder, List.any_eq_true]

theorem existsUnder_removeAll (fs : FS) (p : Path) :
    existsUnder (removeAll fs p) p = false := by
  rw [Bool.eq_false_iff]
  intro h
  rw [existsUnder_iff] at h
  obtain ⟨e, he, hu⟩ := h
  simp only [removeAll, List.mem_filter] at he
  rw [hu] at he
  simp at he

/-- C6: the Installer contract. On a well-formed file system where the staged
snapshot exists and neither of staged path and destination lies under the
other: a missing destination is created with all its parents before the
move, an existing destination is first removed recursively, the move
succeeds, and afterwards the destination holds exactly the nodes the staged
snapshot held while the staged path no longer exists at its original
location (moved, not copied). -/
theorem installOp_spec (fs : FS) (src dest : Path)
    (hc : closedFS fs = true) (hs : existsPath fs src = true)
    (h1 : under src dest = false) (h2 : under dest src = false) :
    (existsPath fs dest = false →
        ∀ q, under q dest = true → existsPath (installStep1 fs dest) q = true)
    ∧ (existsPath fs dest = true →
        existsUnder (installStep2 (installStep1 fs dest) dest) dest = false)
    ∧ ∃ fs2, installOp fs src dest = some fs2
        ∧ (∀ q it, ((dest ++ q, it) ∈ fs2) ↔ ((src ++ q, it) ∈ fs))
        ∧ existsUnder fs2 src = false := by
  have condA : existsPath fs dest = false →
      ∀ q, under q dest = true → existsPath (installStep1 fs dest) q = true := by
    intro hnd q hq
    simp only [installStep1, hnd, Bool.false_eq_true, if_false]
    rw [existsPath_iff]
    refine ⟨(q, item.dir), ?_, rfl⟩
    simp only [mkdirAll, List.mem_append, List.mem_map]
    left
    exact ⟨q, (mem_ancestors q dest).mpr hq, rfl⟩
  have hF1 : existsPath (installStep1 fs dest) dest = true := by
    by_cases hd : existsPath fs dest = true
    · simp [installStep1, hd]
    · have hd2 : existsPath fs dest = false := by simpa using hd
      simp only [installStep1, hd2, Bool.false_eq_true, if_false]
      rw [existsPath_iff]
      refine ⟨(dest, item.dir), ?_, rfl⟩
      simp only [mkdirAll, List.mem_append, List.mem_map]
      left
      exact ⟨dest, (mem_ancestors dest dest).mpr (under_refl dest), rfl⟩
  have hStep2 : installStep2 (installStep1 fs dest) dest
      = removeAll (installStep1 fs dest) dest := by
    simp [installStep2, hF1]
  have condB : existsUnder (installStep2 (installStep1 fs dest) dest) dest = false := by
    rw [hStep2]
    exact existsUnder_removeAll (installStep1 fs dest) dest
  have hmem_fs_step1 : ∀ e ∈ fs, e ∈ installStep1 fs dest := by
    intro e he
    by_cases hd : existsPath fs dest = true
    · simpa [installStep1, hd] using he
    · have hd2 : existsPath fs dest = false := by simpa using hd
      simp only [installStep1, hd2, Bool.false_eq_true, if_false, mkdirAll, List.mem_append]
      exact Or.inr he
  have hmem_step1_cases : ∀ e ∈ installStep1 fs dest,
      e ∈ fs ∨ ∃ a ∈ ancestors dest, e = (a, item.dir) := by
    intro e he
    by_cases hd : existsPath fs dest = true
    · simp only [installStep1, hd, if_true] at he
      exact Or.inl he
    · have hd2 : existsPath fs dest = false := by simpa using hd
      simp only [installStep1, hd2, Bool.false_eq_true, if_false, mkdirAll,
        List.mem_append, List.mem_map] at he
      rcases he with ⟨a, ha, hae⟩ | he
      · exact Or.inr ⟨a, ha, hae.symm⟩
      · exact Or.inl he
  have hmem_step2 : ∀ e : Path × item, e ∈ installStep2 (installStep1 fs dest) dest
      ↔ (e ∈ installStep1 fs dest ∧ under dest e.1 = false) := by
    intro e
    rw [hStep2]
    simp [removeAll, List.mem_filter]
  have hg1 : existsPath (installStep2 (installStep1 fs dest) dest) src = true := by
    rw [existsPath_iff] at hs ⊢
    obtain ⟨e, he, hesrc⟩ := hs
    refine ⟨e, ?_, hesrc⟩
    rw [hmem_step2]
    exact ⟨hmem_fs_step1 e he, by rw [hesrc]; exact h2⟩
  have hg3 : dest = [] ∨ existsPath (installStep2 (installStep1 fs dest) dest)
      dest.dropLast = true := by
    by_cases hdd : dest = []
    · exact Or.inl hdd
    · right
      have hup : under dest.dropLast dest = true := under_dropLast dest hdd
      have hudp : under dest dest.dropLast = false := by
        cases hud : under dest dest.dropLast with
        | false => rfl
        | true =>
          exfalso
          have hl := under_length _ _ hud
          rw [List.length_dropLast] at hl
          have hpos : 0 < dest.length := List.length_pos.mpr hdd
          omega
      have hstep1 : existsPath (installStep1 fs dest) dest.dropLast = true := by
        by_cases hd : existsPath fs dest = true
        · rw [existsPath_iff] at hd
          obtain ⟨e0, he0, he0d⟩ := hd
          have hcall := List.all_eq_true.mp hc e0 he0
          have hanc := List.all_eq_true.mp hcall dest.dropLast
            (by rw [he0d]; exact (mem_ancestors dest.dropLast dest).mpr hup)
          rw [existsPath_iff] at hanc
          obtain ⟨e1, he1, he1d⟩ := hanc
          rw [existsPath_iff]
          exact ⟨e1, hmem_fs_step1 e1 he1, he1d⟩
        · have hd2 : existsPath fs dest = false := by simpa using hd
          simp only [installStep1, hd2, Bool.false_eq_true, if_false]
          rw [existsPath_iff]
          refine ⟨(dest.dropLast, item.dir), ?_, rfl⟩
          simp only [mkdirAll, List.mem_append, List.mem_map]
          left
          exact ⟨dest.dropLast, (mem_ancestors dest.dropLast dest).mpr hup, rfl⟩
      rw [existsPath_iff] at hstep1 ⊢
      obtain ⟨e, he, hed⟩ := hstep1
      refine ⟨e, ?_, hed⟩
      rw [hmem_step2]
      exact ⟨he, by rw [hed]; exact hudp⟩
  have hren : installOp fs src dest
      = some (((installStep2 (installStep1 fs dest) dest).filter
              (fun e => under src e.1)).map (fun e => (rebase src dest e.1, e.2))
          ++ (installStep2 (installStep1 fs dest) dest).filter (fun e => !under src e.1)) := by
    unfold installOp rename
    rw [if_pos ⟨hg1, condB, hg3⟩]
  refine ⟨condA, fun _ => condB, _, hren, ?_, ?_⟩
  · intro q it
    constructor
    · intro hmem
      rcases List.mem_append.mp hmem with hmem | hmem
      · simp only [List.mem_map, List.mem_filter] at hmem
        obtain ⟨e, ⟨he2, hue⟩, heq⟩ := hmem
        have hdrop : e.1.drop src.length = q := by
          have := congrArg Prod.fst heq
          simp only [rebase] at this
          exact List.append_cancel_left this
        have hepath : e.1 = src ++ q := by
          rw [← hdrop]
          exact (under_drop src e.1 hue).symm
        have hit : e.2 = it := congrArg Prod.snd heq
        have hee : e = (src ++ q, it) := by
          cases e with
          | mk p i =>
            simp only at hepath hit
            rw [hepath, hit]
        rw [hee] at he2
        rw [hmem_step2] at he2
        rcases hmem_step1_cases _ he2.1 with hin | ⟨a, ha, hae⟩
        · exact hin
        · exfalso
          have hap : a = src ++ q := (congrArg Prod.fst hae).symm
          have hadest : under a dest = true := (mem_ancestors a dest).mp ha
          rw [hap] at hadest
          have : under src dest = true :=
            under_trans src (src ++ q) dest (under_append src q) hadest
          rw [h1] at this
          cases this
      · exfalso
        simp only [List.mem_filter] at hmem
        obtain ⟨he2, hnu⟩ := hmem
        rw [hmem_step2] at he2
        have : under dest (dest ++ q) = true := under_append dest q
        rw [he2.2] at this
        cases this
    · intro hmem
      apply List.mem_append.mpr
      left
      simp only [List.mem_map, List.mem_filter]
      refine ⟨(src ++ q, it), ⟨?_, under_append src q⟩, ?_⟩
      · rw [hmem_step2]
        refine ⟨hmem_fs_step1 _ hmem, ?_⟩
        cases hud : under dest (src ++ q) with
        | false => rfl
        | true =>
          exfalso
          rcases under_append_cases dest src q hud with hx | hx
          · rw [h2] at hx
            cases hx
          · rw [h1] at hx
            cases hx
      · simp only [rebase, List.drop_left]
  · rw [Bool.eq_false_iff]
    intro h
    rw [existsUnder_iff] at h
    obtain ⟨e, he, hu⟩ := h
    rcases List.mem_append.mp he with hmem | hmem
    · simp only [List.mem_map, List.mem_filter] at hmem
      obtain ⟨x, ⟨_, hux⟩, hxe⟩ := hmem
      have hep : e.1 = dest ++ x.1.drop src.length := (congrArg Prod.fst hxe).symm
      rw [hep] at hu
      rcases under_append_cases src dest (x.1.drop src.length) hu with hx | hx
      · rw [h1] at hx
        cases hx
      · rw [h2] at hx
        cases hx
    · simp only [List.mem_filter] at hmem
      rw [hu] at hmem
      simp at hmem

/-- C6 witness: a concrete well-formed file system with a staged snapshot at
/stage and destination /out/p; the install succeeds, the destination holds
exactly the staged contents, and the staged path is gone. -/
theorem installOp_spec_witness :
    closedFS [([], item.dir), (["stage"], item.dir), (["stage", "f"], item.file "x"),
        (["out"], item.dir)] = true
    ∧ (installOp [([], item.dir), (["stage"], item.dir), (["stage", "f"], item.file "x"),
        (["out"], item.dir)] ["stage"] ["out", "p"]).isSome = true := by
  have h := installOp_spec
    [([], item.dir), (["stage"], item.dir), (["stage", "f"], item.file "x"),
      (["out"], item.dir)]
    ["stage"] ["out", "p"] (by decide) (by decide) (by decide) (by decide)
  refine ⟨by decide, ?_⟩
  obtain ⟨fs2, hf, _, _⟩ := h.2.2
  rw [hf]
  rfl

end Gardenia
